import Mathlib

/-!
Verification of the relviz fact-language front end against its specification.

The repository ships the language documentation (`syntax.md`, design notes,
a UML style catalogue) and the web front-end script `webrelviz.js`.  The
resolver implementation itself (lexer, fact parser, type registry, attribute
resolver, graph model builder) is not part of the source tree, so those
components are modelled here from the specification text; the web front-end
definitions are translated from `src/assets/webrelviz.js`.
-/

namespace Relviz

/-- Modelled from the spec (§3 Data model): the five type kinds; the
implementation source for the fact-language core is missing from the tree. -/
inductive TypeKind
  | element
  | node
  | edge
  | cluster
  | containment
deriving DecidableEq, Repr

/-- Modelled from the spec (§3 Data model): a type definition with synonym
names, a kind, an ordered parent list, its own attribute block (an ordered
list of key/value pairs, last value winning per key) and an optional label
template.  The implementation source is missing from the tree. -/
structure TypeDef where
  names : List String
  kind : TypeKind
  parents : List String
  attributes : List (String × String)
  labelTemplate : Option String
deriving DecidableEq, Repr

/-- Modelled from the spec (§4.3 Type Registry): the registry accumulated
from type-declaration facts, looked up by any synonym name. -/
def lookupType (reg : List TypeDef) (name : String) : Option TypeDef :=
  reg.find? (fun td => decide (name ∈ td.names))

/-- Modelled from the spec (§4.3): declared parent list of a name; absent
names have no parents. -/
def parentsOf (reg : List TypeDef) (name : String) : List String :=
  match lookupType reg name with
  | some td => td.parents
  | none => []

/-- Modelled from the spec (§4.4): the attribute block declared directly on
a type, empty for unknown names. -/
def attrsOf (reg : List TypeDef) (name : String) : List (String × String) :=
  match lookupType reg name with
  | some td => td.attributes
  | none => []

/-- Modelled from the spec (§4.3): the ancestor traversal, "self, then each
parent's ancestor chain, skipping names already emitted"; the fuel bounds the
recursion depth and is always sufficient for acyclic hierarchies. -/
def ancStep (reg : List TypeDef) : Nat → List String → String → List String
  | 0, emitted, _ => emitted
  | fuel + 1, emitted, n =>
    if n ∈ emitted then emitted
    else (parentsOf reg n).foldl (ancStep reg fuel) (emitted ++ [n])

/-- Modelled from the spec: the recursion budget used by the registry
traversals; one more than the number of registered type definitions, which
exceeds the length of any parent chain in an acyclic hierarchy. -/
def hierFuel (reg : List TypeDef) : Nat := reg.length + 1

/-- Modelled from the spec (§4.3): `ancestorsOf(name)`, the merge-order
sequence of ancestor names (self first). -/
def ancestorsOf (reg : List TypeDef) (name : String) : List String :=
  ancStep reg (hierFuel reg) [] name

/-- Modelled from the spec's words (§4.3): the naive depth-first ancestor
chain, "self first, then each parent's ancestor chain depth-first in declared
order", with no duplicate suppression.  Used as the specification-side
description that `ancestorsOf` is compared against. -/
def naiveChain (reg : List TypeDef) : Nat → String → List String
  | 0, _ => []
  | fuel + 1, n =>
    n :: (parentsOf reg n).foldr (fun p acc => naiveChain reg fuel p ++ acc) []

/-- Concatenation of the naive chains of a list of names. -/
def chainConcat (reg : List TypeDef) (fuel : Nat) (ps : List String) : List String :=
  ps.foldr (fun p acc => naiveChain reg fuel p ++ acc) []

/-- The fully expanded naive chain of a name, at the registry's fuel. -/
def fullChain (reg : List TypeDef) (n : String) : List String :=
  naiveChain reg (hierFuel reg) n

/-- Modelled from the spec's words (§4.3): suppression of duplicates at
their first occurrence, relative to a set of names already seen. -/
def dedupFirst (seen : List String) : List String → List String
  | [] => []
  | x :: xs => if x ∈ seen then dedupFirst seen xs else x :: dedupFirst (seen ++ [x]) xs

/-- Every name of a list `L` occurs in the full chain of some member. -/
def ClosedIn (reg : List TypeDef) (L : List String) (m : String) : Prop :=
  ∀ x ∈ fullChain reg m, x ∈ L

/-- Acyclicity of the parent graph, witnessed by a rank function that drops
strictly along parent edges and is bounded by the registry size. -/
def Ranked (reg : List TypeDef) (rank : String → Nat) : Prop :=
  (∀ n p, p ∈ parentsOf reg n → rank p < rank n) ∧ (∀ n, rank n ≤ reg.length)

/-- Concatenation of the own attribute blocks of a list of type names. -/
def attrsConcat (reg : List TypeDef) : List String → List (String × String)
  | [] => []
  | n :: ns => attrsOf reg n ++ attrsConcat reg ns

/-- Modelled from the spec (§4.4 Attribute Resolver): `effectiveAttributes`
layers each ancestor's own attribute block onto an accumulator from the most
distant ancestor to the type itself (reverse merge order), most-derived last. -/
def effectiveAttributes (reg : List TypeDef) (name : String) : List (String × String) :=
  attrsConcat reg (ancestorsOf reg name).reverse

/-- Modelled from the spec (§3): lookup in an ordered attribute block; the
last value written for a key wins. -/
def blockGet (b : List (String × String)) (k : String) : Option String :=
  match b.reverse.find? (fun p => p.1 == k) with
  | some p => some p.2
  | none => none

/-- Modelled from the spec (§7 Error handling): the fatal registry error
raised by cycle detection, reporting the participating names. -/
inductive RegError
  | CyclicTypeHierarchy (names : List String)
deriving DecidableEq, Repr

/-- All names declared by the registry's type definitions. -/
def allNames : List TypeDef → List String
  | [] => []
  | td :: tds => td.names ++ allNames tds

/-- Modelled from the spec (§4.3): bounded reachability along parent edges,
used by the post-registration cycle check. -/
def reachB (reg : List TypeDef) : Nat → String → String → Bool
  | 0, _, _ => false
  | fuel + 1, src, tgt =>
    (parentsOf reg src).any (fun p => p == tgt || reachB reg fuel p tgt)

/-- Modelled from the spec: the recursion budget of the cycle check — one
more than the number of registered names, which exceeds the length of any
duplicate-free walk along parent edges. -/
def reachFuel (reg : List TypeDef) : Nat := (allNames reg).length + 1

/-- Registered names that lie on a parent cycle (reachable from one of their
own parents within the cycle-check budget). -/
def cyclicNames (reg : List TypeDef) : List String :=
  (allNames reg).filter (fun n => reachB reg (reachFuel reg) n n)

/-- A walk along parent edges: starting at the first name, each listed name
is a declared parent of the previous one, and the walk ends at the last
argument.  A registry contains a parent cycle exactly when some name has a
nonempty such walk back to itself. -/
def stepsToL (reg : List TypeDef) : String → List String → String → Prop
  | a, [], b => a = b
  | a, p :: l, b => p ∈ parentsOf reg a ∧ stepsToL reg p l b

instance stepsToLDecidable (reg : List TypeDef) :
    (a : String) → (l : List String) → (b : String) → Decidable (stepsToL reg a l b)
  | a, [], b => inferInstanceAs (Decidable (a = b))
  | a, p :: l, b =>
    have _hd : Decidable (stepsToL reg p l b) := stepsToLDecidable reg p l b
    inferInstanceAs (Decidable (p ∈ parentsOf reg a ∧ stepsToL reg p l b))

/-- Modelled from the spec (§4.3): cycle detection performed once, after all
type facts are registered; a cycle is fatal `CyclicTypeHierarchy`.  The check
is a total function: it terminates on every registry. -/
def validateHierarchy (reg : List TypeDef) : Except RegError Unit :=
  match cyclicNames reg with
  | [] => Except.ok ()
  | n :: ns => Except.error (RegError.CyclicTypeHierarchy (n :: ns))

/-- Modelled from the spec (§3): a parsed fact — an object fact or a
relation fact — with its label and attribute-block data. -/
inductive Fact
  | obj (type : String) (names : List String) (label : Option String)
      (attrs : List (String × String))
  | rel (lhs : List String) (lhsLabel : Option String) (relType : String)
      (rhsLabel : Option String) (rhs : List String)
      (attrs : List (String × String))
deriving DecidableEq, Repr

/-- Modelled from the spec (§3): a resolved edge; identity is the tuple
(ordinal, lhs, rhs, relation type), the ordinal disambiguating parallel
edges. -/
structure Edge where
  ordinal : Nat
  lhs : String
  rhs : String
  relType : String
  attributes : List (String × String)
deriving DecidableEq, Repr

/-- Modelled from the spec (§3): a resolved vertex. -/
structure Vertex where
  name : String
  type : String
  label : Option String
  attributes : List (String × String)
deriving DecidableEq, Repr

/-- Modelled from the spec (§4.5): the implicit default type given to
auto-vivified vertices. -/
def defaultType : String := "node"

/-- The ordered cross product of the left-hand and right-hand name lists of
a relation fact. -/
def relPairs : List String → List String → List (String × String)
  | [], _ => []
  | a :: la, rb => rb.map (fun b => (a, b)) ++ relPairs la rb

/-- Edges produced for one relation fact, one per (lhs, rhs) pair, with
consecutive ordinals starting at `k`. -/
def edgesFrom (rt : String) (attrs : List (String × String)) :
    Nat → List (String × String) → List Edge
  | _, [] => []
  | k, (a, b) :: ps => ⟨k, a, b, rt, attrs⟩ :: edgesFrom rt attrs (k + 1) ps

/-- Number of edges a single fact contributes. -/
def factEdgeCount : Fact → Nat
  | Fact.obj _ _ _ _ => 0
  | Fact.rel lhs _ _ _ rhs _ => (relPairs lhs rhs).length

/-- Total number of edges contributed by a fact list. -/
def edgeCountList : List Fact → Nat
  | [] => 0
  | f :: fs => factEdgeCount f + edgeCountList fs

/-- Modelled from the spec (§4.5 Graph Model Builder): edges built from the
classified facts, with an incrementing ordinal across the whole input so that
parallel edges stay distinct; effective attributes are the relation type's
effective attributes overridden by the fact's own block. -/
def buildEdgesFrom (reg : List TypeDef) : Nat → List Fact → List Edge
  | _, [] => []
  | k, Fact.obj _ _ _ _ :: fs => buildEdgesFrom reg k fs
  | k, Fact.rel lhs _ rt _ rhs attrs :: fs =>
    edgesFrom rt (effectiveAttributes reg rt ++ attrs) k (relPairs lhs rhs)
      ++ buildEdgesFrom reg (k + (relPairs lhs rhs).length) fs

/-- The multiset of edges of the built graph. -/
def buildEdges (reg : List TypeDef) (facts : List Fact) : List Edge :=
  buildEdgesFrom reg 0 facts

/-- Names bound by object facts. -/
def objNames : List Fact → List String
  | [] => []
  | Fact.obj _ ns _ _ :: fs => ns ++ objNames fs
  | Fact.rel _ _ _ _ _ _ :: fs => objNames fs

/-- Names mentioned as relation endpoints. -/
def endpointNames : List Fact → List String
  | [] => []
  | Fact.obj _ _ _ _ :: fs => endpointNames fs
  | Fact.rel lhs _ _ _ rhs _ :: fs => lhs ++ rhs ++ endpointNames fs

/-- Modelled from the spec (§4.5): vertices created by explicit object
facts, with effective attributes overridden by the fact's own block. -/
def explicitVertices (reg : List TypeDef) : List Fact → List Vertex
  | [] => []
  | Fact.obj ty ns lbl attrs :: fs =>
    ns.map (fun nm => ⟨nm, ty, lbl, effectiveAttributes reg ty ++ attrs⟩)
      ++ explicitVertices reg fs
  | Fact.rel _ _ _ _ _ _ :: fs => explicitVertices reg fs

/-- Modelled from the spec (§4.5): auto-vivification — a name mentioned only
as a relation endpoint, never given an object fact, is materialized as a
vertex of the implicit default type with no attributes. -/
def implicitVertices (facts : List Fact) : List Vertex :=
  ((dedupFirst [] (endpointNames facts)).filter
      (fun nm => !(decide (nm ∈ objNames facts)))).map
    (fun nm => ⟨nm, defaultType, none, []⟩)

/-- Modelled from the spec (§4.5): the vertex set of the built graph. -/
def buildVertices (reg : List TypeDef) (facts : List Fact) : List Vertex :=
  explicitVertices reg facts ++ implicitVertices facts

/-- Modelled from the spec (§4.1 Lexer, and `src/syntax.md` Identifiers):
scanning of a quoted identifier after its opening quote; a backslash escapes
the next character (so backslash-quote yields a literal quote and a doubled
backslash yields one backslash), an unescaped quote closes the identifier, a
raw line feed or end of input before the closing quote is a lexical error.
Returns the decoded text and the remaining characters. -/
def lexQuoted : List Char → Option (List Char × List Char)
  | [] => none
  | '"' :: rest => some ([], rest)
  | '\n' :: _ => none
  | '\\' :: c :: rest =>
    match lexQuoted rest with
    | some (s, r) => some (c :: s, r)
    | none => none
  | c :: rest =>
    match lexQuoted rest with
    | some (s, r) => some (c :: s, r)
    | none => none

/-- Modelled from the spec (§4.2 Fact Parser): tokens of a fact header line
after lexing — decoded identifiers and the comma name-list delimiter. -/
inductive Tok
  | ident (s : String)
  | comma
deriving DecidableEq, Repr

/-- Modelled from the spec (§4.2): the three connective tokens of a
type-declaration header. -/
def connectives : List String := ["is-a", "is-an", "are"]

/-- Continuation of a comma-separated name list: consumes `, name`
repetitions and returns the collected names and the remaining tokens. -/
def parseMoreNames : List Tok → List String × List Tok
  | Tok.comma :: Tok.ident s :: rest =>
    let r := parseMoreNames rest
    (s :: r.1, r.2)
  | toks => ([], toks)

/-- A comma-separated name list: one name, then `, name` repetitions. -/
def parseNameList : List Tok → Option (List String × List Tok)
  | Tok.ident s :: rest =>
    let r := parseMoreNames rest
    some (s :: r.1, r.2)
  | _ => none

/-- Modelled from the spec (§4.2): the `is-a`/`is-an`/`are` connective is
dropped when it separates the synonym list from the parent list; it carries
no other semantic weight. -/
def dropConnective : List Tok → List Tok
  | Tok.ident c :: rest =>
    if c ∈ connectives then rest else Tok.ident c :: rest
  | toks => toks

/-- Modelled from the spec (§4.2): parsing of a type-declaration header
`<kind-keyword> <name>[, <name>…] [is-a|is-an|are] <parent>[, <parent>…]`
with its attached attribute block.  The parser consults no registry: whether
the connective tokens are also declared as edge-type names in the input is
irrelevant to this function's result. -/
def parseTypeDecl (kind : TypeKind) (toks : List Tok)
    (attrs : List (String × String)) : Option TypeDef :=
  match parseNameList toks with
  | none => none
  | some (names, rest) =>
    match rest with
    | [] => some ⟨names, kind, [], attrs, blockGet attrs "label"⟩
    | _ =>
      match parseNameList (dropConnective rest) with
      | some (parents, []) => some ⟨names, kind, parents, attrs, blockGet attrs "label"⟩
      | _ => none

/-- Token encoding of the tail of a comma-separated name list. -/
def encodeTail : List String → List Tok
  | [] => []
  | n :: ns => Tok.comma :: Tok.ident n :: encodeTail ns

/-- Token encoding of a comma-separated name list. -/
def encodeNames : List String → List Tok
  | [] => []
  | n :: ns => Tok.ident n :: encodeTail ns

/-- From `src/assets/webrelviz.js` (form submit handler): JavaScript object
assignment `form_dict[pair.name] = pair.value` — replace the entry for an
existing key, otherwise append the pair. -/
def dictSet : List (String × String) → String → String → List (String × String)
  | [], k, v => [(k, v)]
  | p :: d, k, v => if p.1 == k then (k, v) :: d else p :: dictSet d k v

/-- Lookup in the dictionary built by the submit handler. -/
def dictGet (d : List (String × String)) (k : String) : Option String :=
  match d.find? (fun p => p.1 == k) with
  | some p => some p.2
  | none => none

/-- From `src/assets/webrelviz.js` line 22: the `pair.name.startsWith` test
against the one-character prefix `_` — the field name's first character is an
underscore. -/
def underscored (s : String) : Bool :=
  match s.data with
  | [] => false
  | c :: _ => c == '_'

/-- From `src/assets/webrelviz.js` lines 20–23: the serialized form data is
filtered to the fields whose names do not start with an underscore, then
folded into a dictionary by object assignment, later entries overriding
earlier ones. -/
def formDict (pairs : List (String × String)) : List (String × String) :=
  (pairs.filter (fun p => !(underscored p.1))).foldl
    (fun d p => dictSet d p.1 p.2) []

/-- A node placed into the `#output` element by the submit handler's
callbacks: the error `pre` block on failure, the adopted SVG document on
success. -/
inductive OutNode
  | errorPre (text : String)
  | svgDoc (doc : String)
deriving DecidableEq, Repr

/-- The document state touched by the submit handler's callbacks: whether
the form carries the `busy` class, and the children of `#output`. -/
structure Dom where
  formBusy : Bool
  output : List OutNode
deriving DecidableEq, Repr

/-- From `src/assets/webrelviz.js` line 24 and the callbacks: the `busy`
class is removed from the form. -/
def removeBusy (d : Dom) : Dom := { d with formBusy := false }

/-- From `src/assets/webrelviz.js`: `$(output).empty()`. -/
def emptyOutput (d : Dom) : Dom := { d with output := [] }

/-- From `src/assets/webrelviz.js`: `.append(node)` on `#output`. -/
def appendOutput (d : Dom) (n : OutNode) : Dom :=
  { d with output := d.output ++ [n] }

/-- From `src/assets/webrelviz.js` lines 26–32 (the `fail` callback):
remove the busy class, build the error `pre` text from status, status text
and response body, then empty `#output` and append the `pre`. -/
def onFail (d : Dom) (status : Nat) (statusText responseText : String) : Dom :=
  appendOutput (emptyOutput (removeBusy d))
    (OutNode.errorPre (toString status ++ " " ++ statusText ++ "\n\n" ++ responseText))

/-- From `src/assets/webrelviz.js` lines 33–38 (the `done` callback):
remove the busy class, empty `#output` and append the adopted document
element. -/
def onDone (d : Dom) (docEl : String) : Dom :=
  appendOutput (emptyOutput (removeBusy d)) (OutNode.svgDoc docEl)

/-- A concrete diamond hierarchy: `D is-a B, C`; `B is-a A`; `C is-a A`. -/
def tdA : TypeDef := ⟨["A"], TypeKind.node, [], [("x", "a"), ("y", "a"), ("z", "a")], none⟩

/-- Type `B`, first parent of `D`. -/
def tdB : TypeDef := ⟨["B"], TypeKind.node, ["A"], [("y", "b"), ("w", "b")], none⟩

/-- Type `C`, second parent of `D`. -/
def tdC : TypeDef := ⟨["C"], TypeKind.node, ["A"], [("y", "c"), ("z", "c"), ("w", "c")], none⟩

/-- Type `D`, the diamond's bottom. -/
def tdD : TypeDef := ⟨["D"], TypeKind.node, ["B", "C"], [("z", "d")], none⟩

/-- The diamond registry in one declaration order. -/
def regDiamond : List TypeDef := [tdA, tdB, tdC, tdD]

/-- The diamond registry with the type facts declared in another order. -/
def regDiamondPerm : List TypeDef := [tdD, tdB, tdA, tdC]

/-- A rank function witnessing acyclicity of the diamond registry. -/
def rankDiamond (n : String) : Nat :=
  if n = "D" then 3 else if n = "B" then 2 else if n = "C" then 2
  else if n = "A" then 1 else 0

/-- The two-declaration cyclic registry `node-type X is-a Y`,
`node-type Y is-a X`. -/
def regCycle : List TypeDef :=
  [⟨["X"], TypeKind.node, ["Y"], [], none⟩, ⟨["Y"], TypeKind.node, ["X"], [], none⟩]

/-- The facts of the auto-vivification example: `class A` plus `A has B`. -/
def vivFacts : List Fact :=
  [Fact.obj "class" ["A"] none [], Fact.rel ["A"] none "has" none ["B"] []]

/-- A duplicated relation fact, for the multigraph example `A rel B` twice. -/
def dupRelFacts : List Fact :=
  [Fact.rel ["A"] none "rel" none ["B"] [], Fact.rel ["A"] none "rel" none ["B"] []]

theorem dedupFirst_nil (seen : List String) : dedupFirst seen [] = [] := rfl

theorem dedupFirst_cons_mem {seen : List String} {x : String} (h : x ∈ seen)
    (xs : List String) : dedupFirst seen (x :: xs) = dedupFirst seen xs := by
  simp [dedupFirst, h]

theorem dedupFirst_cons_not_mem {seen : List String} {x : String} (h : x ∉ seen)
    (xs : List String) :
    dedupFirst seen (x :: xs) = x :: dedupFirst (seen ++ [x]) xs := by
  simp [dedupFirst, h]

theorem dedupFirst_append (seen l₁ l₂ : List String) :
    dedupFirst seen (l₁ ++ l₂) =
      dedupFirst seen l₁ ++ dedupFirst (seen ++ dedupFirst seen l₁) l₂ := by
  induction l₁ generalizing seen with
  | nil => simp [dedupFirst]
  | cons x xs ih =>
    by_cases hx : x ∈ seen
    · simp only [List.cons_append, dedupFirst_cons_mem hx]
      exact ih seen
    · simp only [List.cons_append, dedupFirst_cons_not_mem hx]
      rw [ih (seen ++ [x])]
      simp [List.append_assoc]

theorem mem_seen_or_dedupFirst {x : String} {l : List String} (seen : List String)
    (h : x ∈ l) : x ∈ seen ∨ x ∈ dedupFirst seen l := by
  induction l generalizing seen with
  | nil => cases h
  | cons y ys ih =>
    by_cases hy : y ∈ seen
    · rw [dedupFirst_cons_mem hy]
      rcases List.mem_cons.mp h with rfl | h'
      · exact Or.inl hy
      · exact ih seen h'
    · rw [dedupFirst_cons_not_mem hy]
      rcases List.mem_cons.mp h with rfl | h'
      · exact Or.inr (List.mem_cons_self _ _)
      · rcases ih (seen ++ [y]) h' with hs | hd
        · rcases List.mem_append.mp hs with hs | hs
          · exact Or.inl hs
          · simp only [List.mem_singleton] at hs
            exact Or.inr (hs ▸ List.mem_cons_self _ _)
        · exact Or.inr (List.mem_cons_of_mem _ hd)

theorem dedupFirst_subset {x : String} {l : List String} {seen : List String}
    (h : x ∈ dedupFirst seen l) : x ∈ l := by
  induction l generalizing seen with
  | nil => simp [dedupFirst] at h
  | cons y ys ih =>
    by_cases hy : y ∈ seen
    · rw [dedupFirst_cons_mem hy] at h
      exact List.mem_cons_of_mem _ (ih h)
    · rw [dedupFirst_cons_not_mem hy] at h
      rcases List.mem_cons.mp h with rfl | h'
      · exact List.mem_cons_self _ _
      · exact List.mem_cons_of_mem _ (ih h')

theorem dedupFirst_not_mem_seen {x : String} {l : List String} {seen : List String}
    (h : x ∈ dedupFirst seen l) : x ∉ seen := by
  induction l generalizing seen with
  | nil => simp [dedupFirst] at h
  | cons y ys ih =>
    by_cases hy : y ∈ seen
    · rw [dedupFirst_cons_mem hy] at h
      exact ih h
    · rw [dedupFirst_cons_not_mem hy] at h
      rcases List.mem_cons.mp h with rfl | h'
      · exact hy
      · intro hx
        exact ih h' (List.mem_append.mpr (Or.inl hx))

theorem dedupFirst_nodup (seen l : List String) : (dedupFirst seen l).Nodup := by
  induction l generalizing seen with
  | nil => simp [dedupFirst]
  | cons y ys ih =>
    by_cases hy : y ∈ seen
    · rw [dedupFirst_cons_mem hy]
      exact ih seen
    · rw [dedupFirst_cons_not_mem hy]
      refine List.nodup_cons.mpr ⟨?_, ih (seen ++ [y])⟩
      intro hmem
      exact dedupFirst_not_mem_seen hmem (by simp)

theorem dedupFirst_eq_nil {l seen : List String} (h : ∀ x ∈ l, x ∈ seen) :
    dedupFirst seen l = [] := by
  induction l with
  | nil => rfl
  | cons y ys ih =>
    rw [dedupFirst_cons_mem (h y (List.mem_cons_self _ _))]
    exact ih (fun x hx => h x (List.mem_cons_of_mem _ hx))

theorem find?_append_some {α : Type} {p : α → Bool} {l₁ : List α} {a : α}
    (h : l₁.find? p = some a) (l₂ : List α) : (l₁ ++ l₂).find? p = some a := by
  induction l₁ with
  | nil => simp [List.find?] at h
  | cons x xs ih =>
    rcases hx : p x with _ | _
    · rw [List.find?_cons_of_neg _ (by simp [hx])] at h
      rw [List.cons_append, List.find?_cons_of_neg _ (by simp [hx])]
      exact ih h
    · rw [List.find?_cons_of_pos _ hx] at h
      rw [List.cons_append, List.find?_cons_of_pos _ hx]
      exact h

theorem find?_append_none {α : Type} {p : α → Bool} {l₁ : List α}
    (h : l₁.find? p = none) (l₂ : List α) : (l₁ ++ l₂).find? p = l₂.find? p := by
  induction l₁ with
  | nil => simp
  | cons x xs ih =>
    rcases hx : p x with _ | _
    · rw [List.find?_cons_of_neg _ (by simp [hx])] at h
      rw [List.cons_append, List.find?_cons_of_neg _ (by simp [hx])]
      exact ih h
    · rw [List.find?_cons_of_pos _ hx] at h
      cases h

theorem blockGet_append_right {ys : List (String × String)} {k : String} {v : String}
    (h : blockGet ys k = some v) (xs : List (String × String)) :
    blockGet (xs ++ ys) k = some v := by
  unfold blockGet at h ⊢
  rw [List.reverse_append]
  rcases hf : ys.reverse.find? (fun p => p.1 == k) with _ | q
  · rw [hf] at h; cases h
  · rw [hf] at h
    rw [find?_append_some hf]
    exact h

theorem blockGet_append_left {ys : List (String × String)} {k : String}
    (h : blockGet ys k = none) (xs : List (String × String)) :
    blockGet (xs ++ ys) k = blockGet xs k := by
  unfold blockGet at h ⊢
  rw [List.reverse_append]
  rcases hf : ys.reverse.find? (fun p => p.1 == k) with _ | q
  · rw [find?_append_none hf]
  · rw [hf] at h; cases h

theorem naiveChain_succ (reg : List TypeDef) (fuel : Nat) (n : String) :
    naiveChain reg (fuel + 1) n = n :: chainConcat reg fuel (parentsOf reg n) := rfl

theorem chainConcat_nil (reg : List TypeDef) (fuel : Nat) :
    chainConcat reg fuel [] = [] := rfl

theorem chainConcat_cons (reg : List TypeDef) (fuel : Nat) (p : String)
    (ps : List String) :
    chainConcat reg fuel (p :: ps) = naiveChain reg fuel p ++ chainConcat reg fuel ps := rfl

theorem mem_chainConcat {reg : List TypeDef} {fuel : Nat} {x : String}
    {ps : List String} :
    x ∈ chainConcat reg fuel ps ↔ ∃ p ∈ ps, x ∈ naiveChain reg fuel p := by
  induction ps with
  | nil => simp [chainConcat_nil]
  | cons q qs ih => simp [chainConcat_cons, ih]

theorem self_mem_naiveChain (reg : List TypeDef) {fuel : Nat} (h : 0 < fuel)
    (n : String) : n ∈ naiveChain reg fuel n := by
  rcases fuel with _ | f
  · omega
  · rw [naiveChain_succ]
    exact List.mem_cons_self _ _

theorem rank_lt_of_mem_naiveChain {reg : List TypeDef} {rank : String → Nat}
    (hrk : Ranked reg rank) :
    ∀ fuel n x, x ∈ naiveChain reg fuel n → x = n ∨ rank x < rank n := by
  intro fuel
  induction fuel with
  | zero => intro n x hx; simp [naiveChain] at hx
  | succ f ih =>
    intro n x hx
    rw [naiveChain_succ] at hx
    rcases List.mem_cons.mp hx with rfl | hx'
    · exact Or.inl rfl
    · obtain ⟨p, hp, hxp⟩ := mem_chainConcat.mp hx'
      have hpn : rank p < rank n := hrk.1 n p hp
      rcases ih p x hxp with rfl | hlt
      · exact Or.inr hpn
      · exact Or.inr (lt_trans hlt hpn)

theorem rank_le_of_mem_naiveChain {reg : List TypeDef} {rank : String → Nat}
    (hrk : Ranked reg rank) {fuel : Nat} {n x : String}
    (hx : x ∈ naiveChain reg fuel n) : rank x ≤ rank n := by
  rcases rank_lt_of_mem_naiveChain hrk fuel n x hx with rfl | hlt
  · exact le_refl _
  · exact le_of_lt hlt

theorem naiveChain_stable {reg : List TypeDef} {rank : String → Nat}
    (hrk : Ranked reg rank) :
    ∀ fuel₁ fuel₂ n, rank n < fuel₁ → rank n < fuel₂ →
      naiveChain reg fuel₁ n = naiveChain reg fuel₂ n := by
  intro fuel₁
  induction fuel₁ with
  | zero => intro fuel₂ n h₁; omega
  | succ f₁ ih =>
    intro fuel₂ n h₁ h₂
    rcases fuel₂ with _ | f₂
    · omega
    · rw [naiveChain_succ, naiveChain_succ]
      congr 1
      have : ∀ ps, (∀ p ∈ ps, p ∈ parentsOf reg n) →
          chainConcat reg f₁ ps = chainConcat reg f₂ ps := by
        intro ps
        induction ps with
        | nil => intro _; rfl
        | cons q qs ihq =>
          intro hps
          rw [chainConcat_cons, chainConcat_cons]
          have hq : rank q < rank n := hrk.1 n q (hps q (List.mem_cons_self _ _))
          rw [ih f₂ q (by omega) (by omega),
            ihq (fun p hp => hps p (List.mem_cons_of_mem _ hp))]
      exact this _ (fun p hp => hp)

theorem chain_antisymm {reg : List TypeDef} {rank : String → Nat}
    (hrk : Ranked reg rank) {fuel₁ fuel₂ : Nat} {m n : String}
    (hmn : m ∈ naiveChain reg fuel₁ n) (hnm : n ∈ naiveChain reg fuel₂ m) :
    m = n := by
  rcases rank_lt_of_mem_naiveChain hrk fuel₁ n m hmn with rfl | h₁
  · rfl
  · rcases rank_lt_of_mem_naiveChain hrk fuel₂ m n hnm with rfl | h₂
    · rfl
    · omega

theorem chain_trans {reg : List TypeDef} {rank : String → Nat}
    (hrk : Ranked reg rank) :
    ∀ fuel n m x, rank n < fuel → m ∈ naiveChain reg fuel n →
      x ∈ naiveChain reg fuel m → x ∈ naiveChain reg fuel n := by
  intro fuel
  induction fuel with
  | zero => intro n m x h; omega
  | succ f ih =>
    intro n m x hn hm hx
    rw [naiveChain_succ] at hm
    rcases List.mem_cons.mp hm with rfl | hm'
    · exact hx
    · obtain ⟨p, hp, hmp⟩ := mem_chainConcat.mp hm'
      have hpn : rank p < rank n := hrk.1 n p hp
      have hmr : rank m ≤ rank p := rank_le_of_mem_naiveChain hrk hmp
      have hxm : x ∈ naiveChain reg f m := by
        rw [naiveChain_stable hrk (f + 1) f m (by omega) (by omega)] at hx
        exact hx
      have hxp : x ∈ naiveChain reg f p := ih p m x (by omega) hmp hxm
      rw [naiveChain_succ]
      exact List.mem_cons_of_mem _ (mem_chainConcat.mpr ⟨p, hp, hxp⟩)

theorem lookupType_mem {reg : List TypeDef} {name : String} {td : TypeDef}
    (h : lookupType reg name = some td) : td ∈ reg ∧ name ∈ td.names := by
  refine ⟨List.mem_of_find?_eq_some h, ?_⟩
  have := List.find?_some h
  exact of_decide_eq_true this

theorem mem_parentsOf {reg : List TypeDef} {n p : String}
    (h : p ∈ parentsOf reg n) :
    ∃ td ∈ reg, n ∈ td.names ∧ p ∈ td.parents := by
  unfold parentsOf at h
  rcases hl : lookupType reg n with _ | td
  · rw [hl] at h; cases h
  · rw [hl] at h
    obtain ⟨htd, hn⟩ := lookupType_mem hl
    exact ⟨td, htd, hn, h⟩

theorem reg_length_pos_of_parent {reg : List TypeDef} {n p : String}
    (h : p ∈ parentsOf reg n) : 0 < reg.length := by
  obtain ⟨td, htd, -, -⟩ := mem_parentsOf h
  exact List.length_pos.mpr (List.ne_nil_of_mem htd)

theorem parent_mem_fullChain {reg : List TypeDef} {n p : String}
    (h : p ∈ parentsOf reg n) : p ∈ fullChain reg n := by
  have hlen : 0 < reg.length := reg_length_pos_of_parent h
  unfold fullChain hierFuel
  rw [naiveChain_succ]
  refine List.mem_cons_of_mem _ (mem_chainConcat.mpr ⟨p, h, ?_⟩)
  exact self_mem_naiveChain reg hlen p

theorem naiveChain_sub_fullChain {reg : List TypeDef} {rank : String → Nat}
    (hrk : Ranked reg rank) {n p : String} (hpar : p ∈ parentsOf reg n)
    {fuel : Nat} (hfuel : rank p < fuel) {x : String}
    (hx : x ∈ naiveChain reg fuel p) : x ∈ fullChain reg n := by
  have hlen : 0 < reg.length := reg_length_pos_of_parent hpar
  have hpn : rank p < rank n := hrk.1 n p hpar
  have hbn : rank n ≤ reg.length := hrk.2 n
  unfold fullChain hierFuel
  rw [naiveChain_succ]
  refine List.mem_cons_of_mem _ (mem_chainConcat.mpr ⟨p, hpar, ?_⟩)
  rw [naiveChain_stable hrk reg.length fuel p (by omega) hfuel]
  exact hx

theorem naiveChain_eq_fullChain {reg : List TypeDef} {rank : String → Nat}
    (hrk : Ranked reg rank) {fuel : Nat} {n : String} (h : rank n < fuel) :
    naiveChain reg fuel n = fullChain reg n :=
  naiveChain_stable hrk fuel (hierFuel reg) n h
    (by have := hrk.2 n; unfold hierFuel; omega)

theorem fullChain_trans {reg : List TypeDef} {rank : String → Nat}
    (hrk : Ranked reg rank) {m n x : String}
    (h1 : n ∈ fullChain reg m) (h2 : x ∈ fullChain reg n) : x ∈ fullChain reg m := by
  have hm : rank m < hierFuel reg := by have := hrk.2 m; unfold hierFuel; omega
  exact chain_trans hrk (hierFuel reg) m n x hm h1 h2

theorem ClosedIn_mono {reg : List TypeDef} {L L' : List String} {m : String}
    (h : ClosedIn reg L m) (hsub : ∀ x ∈ L, x ∈ L') : ClosedIn reg L' m :=
  fun x hx => hsub x (h x hx)

/-- Invariant propagation for the fold over a node's parent list inside the
ancestor traversal: provided every call at the smaller fuel satisfies the
specification, the fold emits exactly the first occurrences of the
concatenated parent chains, and every name in the result is either fully
expanded or lies strictly above the current node `n`. -/
theorem foldl_ancStep_spec (reg : List TypeDef) (rank : String → Nat)
    (hrk : Ranked reg rank) (f : Nat) (n : String) (hnf : rank n ≤ f)
    (IH : ∀ p emitted, rank p < f →
        (∀ m ∈ emitted, ClosedIn reg emitted m ∨ (p ∈ fullChain reg m ∧ p ≠ m)) →
        ancStep reg f emitted p = emitted ++ dedupFirst emitted (naiveChain reg f p)
          ∧ ∀ m ∈ ancStep reg f emitted p,
              ClosedIn reg (ancStep reg f emitted p) m ∨ (p ∈ fullChain reg m ∧ p ≠ m)) :
    ∀ ps acc, (∀ p ∈ ps, p ∈ parentsOf reg n) →
      (∀ m ∈ acc, ClosedIn reg acc m ∨ (n ∈ fullChain reg m ∧ n ≠ m) ∨ m = n) →
      (List.foldl (ancStep reg f) acc ps = acc ++ dedupFirst acc (chainConcat reg f ps)
        ∧ ∀ m ∈ List.foldl (ancStep reg f) acc ps,
            ClosedIn reg (List.foldl (ancStep reg f) acc ps) m
              ∨ (n ∈ fullChain reg m ∧ n ≠ m) ∨ m = n) := by
  intro ps
  induction ps with
  | nil =>
    intro acc _ hJ
    refine ⟨by simp [chainConcat_nil, dedupFirst_nil], ?_⟩
    intro m hm
    exact hJ m hm
  | cons p ps ihps =>
    intro acc hps hJ
    have hp : p ∈ parentsOf reg n := hps p (List.mem_cons_self _ _)
    have hrankp : rank p < rank n := hrk.1 n p hp
    have hrankpf : rank p < f := by omega
    have hpfc : p ∈ fullChain reg n := parent_mem_fullChain hp
    have hpre : ∀ m ∈ acc, ClosedIn reg acc m ∨ (p ∈ fullChain reg m ∧ p ≠ m) := by
      intro m hm
      rcases hJ m hm with hC | ⟨hnm, hne⟩ | rfl
      · exact Or.inl hC
      · refine Or.inr ⟨fullChain_trans hrk hnm hpfc, fun hpm => ?_⟩
        subst hpm
        have hpn : p = n := chain_antisymm hrk hpfc hnm
        subst hpn
        omega
      · refine Or.inr ⟨hpfc, fun hpn => ?_⟩
        subst hpn
        omega
    obtain ⟨heq, hpost⟩ := IH p acc hrankpf hpre
    have hJRp : ∀ m ∈ ancStep reg f acc p,
        ClosedIn reg (ancStep reg f acc p) m ∨ (n ∈ fullChain reg m ∧ n ≠ m) ∨ m = n := by
      intro m hm
      by_cases hmacc : m ∈ acc
      · rcases hJ m hmacc with hC | hpend | rfl
        · refine Or.inl (ClosedIn_mono hC ?_)
          rw [heq]
          exact fun x hx => List.mem_append.mpr (Or.inl hx)
        · exact Or.inr (Or.inl hpend)
        · exact Or.inr (Or.inr rfl)
      · rcases hpost m hm with hC | ⟨hpm, hpne⟩
        · exact Or.inl hC
        · exfalso
          have hmd : m ∈ dedupFirst acc (naiveChain reg f p) := by
            rw [heq] at hm
            rcases List.mem_append.mp hm with h | h
            · exact absurd h hmacc
            · exact h
          have hmc : m ∈ naiveChain reg f p := dedupFirst_subset hmd
          have hmf : m ∈ fullChain reg p := by
            rw [naiveChain_eq_fullChain hrk hrankpf] at hmc
            exact hmc
          exact hpne (chain_antisymm hrk hpm hmf)
    have hpss : ∀ q ∈ ps, q ∈ parentsOf reg n :=
      fun q hq => hps q (List.mem_cons_of_mem _ hq)
    obtain ⟨heq2, hpost2⟩ := ihps (ancStep reg f acc p) hpss hJRp
    constructor
    · rw [List.foldl_cons, heq2, heq, chainConcat_cons, dedupFirst_append]
      simp [List.append_assoc]
    · intro m hm
      rw [List.foldl_cons] at hm ⊢
      exact hpost2 m hm

/-- Correctness of the ancestor traversal: against a set of already emitted
names each of which is either fully expanded or strictly above `n`, the
traversal appends exactly the first occurrences of the not-yet-seen names of
`n`'s naive depth-first chain, and afterwards every emitted name is fully
expanded or still strictly above `n`. -/
theorem ancStep_spec (reg : List TypeDef) (rank : String → Nat)
    (hrk : Ranked reg rank) :
    ∀ fuel n emitted, rank n < fuel →
      (∀ m ∈ emitted, ClosedIn reg emitted m ∨ (n ∈ fullChain reg m ∧ n ≠ m)) →
      (ancStep reg fuel emitted n = emitted ++ dedupFirst emitted (naiveChain reg fuel n)
        ∧ ∀ m ∈ ancStep reg fuel emitted n,
            ClosedIn reg (ancStep reg fuel emitted n) m
              ∨ (n ∈ fullChain reg m ∧ n ≠ m)) := by
  intro fuel
  induction fuel with
  | zero => intro n emitted hn; omega
  | succ f ihf =>
    intro n emitted hn hinv
    by_cases he : n ∈ emitted
    · have hcl : ClosedIn reg emitted n := by
        rcases hinv n he with hC | ⟨_, hne⟩
        · exact hC
        · exact absurd rfl hne
      have hnil : dedupFirst emitted (naiveChain reg (f + 1) n) = [] := by
        apply dedupFirst_eq_nil
        intro x hx
        rw [naiveChain_eq_fullChain hrk hn] at hx
        exact hcl x hx
      have hstep : ancStep reg (f + 1) emitted n = emitted := by
        simp [ancStep, he]
      rw [hstep, hnil]
      exact ⟨by simp, fun m hm => hinv m hm⟩
    · have hstep : ancStep reg (f + 1) emitted n =
          List.foldl (ancStep reg f) (emitted ++ [n]) (parentsOf reg n) := by
        simp [ancStep, he]
      have hJ0 : ∀ m ∈ emitted ++ [n],
          ClosedIn reg (emitted ++ [n]) m ∨ (n ∈ fullChain reg m ∧ n ≠ m) ∨ m = n := by
        intro m hm
        rcases List.mem_append.mp hm with h | h
        · rcases hinv m h with hC | hpend
          · exact Or.inl (ClosedIn_mono hC (fun x hx => List.mem_append.mpr (Or.inl hx)))
          · exact Or.inr (Or.inl hpend)
        · simp only [List.mem_singleton] at h
          exact Or.inr (Or.inr h)
      obtain ⟨heq, hpost⟩ := foldl_ancStep_spec reg rank hrk f n (by omega)
        (fun p emitted' hpf hpre => ihf p emitted' hpf hpre)
        (parentsOf reg n) (emitted ++ [n]) (fun p hp => hp) hJ0
      constructor
      · rw [hstep, heq, naiveChain_succ, dedupFirst_cons_not_mem he]
        simp [List.append_assoc]
      · rw [hstep]
        intro m hm
        rcases hpost m hm with hC | hpend | rfl
        · exact Or.inl hC
        · exact Or.inr hpend
        · refine Or.inl ?_
          intro x hx
          unfold fullChain hierFuel at hx
          rw [naiveChain_succ] at hx
          rcases List.mem_cons.mp hx with rfl | hx'
          · rw [heq]
            exact List.mem_append.mpr
              (Or.inl (List.mem_append.mpr (Or.inr (List.mem_singleton.mpr rfl))))
          · obtain ⟨p, hp, hxp⟩ := mem_chainConcat.mp hx'
            have hrp : rank p < rank m := hrk.1 m p hp
            have hbn : rank m ≤ reg.length := hrk.2 m
            have hxf : x ∈ naiveChain reg f p := by
              rw [naiveChain_stable hrk reg.length f p (by omega) (by omega)] at hxp
              exact hxp
            have hxcc : x ∈ chainConcat reg f (parentsOf reg m) :=
              mem_chainConcat.mpr ⟨p, hp, hxf⟩
            rcases mem_seen_or_dedupFirst (emitted ++ [m]) hxcc with hs | hd
            · rw [heq]
              exact List.mem_append.mpr (Or.inl hs)
            · rw [heq]
              exact List.mem_append.mpr (Or.inr hd)

theorem ancestorsOf_eq_dedup {reg : List TypeDef} {rank : String → Nat}
    (hrk : Ranked reg rank) (name : String) :
    ancestorsOf reg name = dedupFirst [] (fullChain reg name) := by
  have h := (ancStep_spec reg rank hrk (hierFuel reg) name []
      (by have := hrk.2 name; unfold hierFuel; omega)
      (by intro m hm; cases hm)).1
  unfold ancestorsOf
  rw [h, List.nil_append]
  rfl

theorem ancestorsOf_nodup {reg : List TypeDef} {rank : String → Nat}
    (hrk : Ranked reg rank) (name : String) : (ancestorsOf reg name).Nodup := by
  rw [ancestorsOf_eq_dedup hrk name]
  exact dedupFirst_nodup [] _

theorem mem_ancestorsOf {reg : List TypeDef} {rank : String → Nat}
    (hrk : Ranked reg rank) {name x : String} :
    x ∈ ancestorsOf reg name ↔ x ∈ fullChain reg name := by
  rw [ancestorsOf_eq_dedup hrk name]
  constructor
  · exact dedupFirst_subset
  · intro hx
    rcases mem_seen_or_dedupFirst [] hx with h | h
    · cases h
    · exact h

theorem ancestorsOf_diamond {reg : List TypeDef} {rank : String → Nat}
    (hrk : Ranked reg rank) {D B C : String} {tD : TypeDef}
    (hD : lookupType reg D = some tD) (hpar : tD.parents = [B, C]) :
    ∃ rest, ancestorsOf reg D = D :: B :: rest := by
  have hparents : parentsOf reg D = [B, C] := by
    unfold parentsOf
    rw [hD]
    exact hpar
  have hBpar : B ∈ parentsOf reg D := by
    rw [hparents]
    exact List.mem_cons_self _ _
  have hlen : 0 < reg.length := reg_length_pos_of_parent hBpar
  have hBD : rank B < rank D := hrk.1 D B hBpar
  have hBneD : B ≠ D := fun h => by subst h; omega
  rw [ancestorsOf_eq_dedup hrk D]
  unfold fullChain hierFuel
  rw [naiveChain_succ, hparents,
    dedupFirst_cons_not_mem (List.not_mem_nil D), chainConcat_cons]
  obtain ⟨l, hl⟩ : ∃ l, reg.length = l + 1 := ⟨reg.length - 1, by omega⟩
  rw [hl, naiveChain_succ, List.cons_append,
    dedupFirst_cons_not_mem (by simpa using hBneD)]
  exact ⟨_, rfl⟩

theorem attrsConcat_append (reg : List TypeDef) (l₁ l₂ : List String) :
    attrsConcat reg (l₁ ++ l₂) = attrsConcat reg l₁ ++ attrsConcat reg l₂ := by
  induction l₁ with
  | nil => simp [attrsConcat]
  | cons x xs ih => simp [attrsConcat, ih]

theorem effectiveAttributes_split {reg : List TypeDef} {rank : String → Nat}
    (hrk : Ranked reg rank) {D B C : String} {tD : TypeDef}
    (hD : lookupType reg D = some tD) (hpar : tD.parents = [B, C]) :
    ∃ pre, effectiveAttributes reg D = pre ++ attrsOf reg B ++ attrsOf reg D := by
  obtain ⟨rest, hrest⟩ := ancestorsOf_diamond hrk hD hpar
  unfold effectiveAttributes
  rw [hrest]
  rw [List.reverse_cons, List.reverse_cons, attrsConcat_append, attrsConcat_append]
  refine ⟨attrsConcat reg rest.reverse, ?_⟩
  simp [attrsConcat, List.append_assoc]

/-- The rank hypotheses hold for the concrete diamond registry. -/
theorem rankDiamond_spec : Ranked regDiamond rankDiamond := by
  constructor
  · intro n p hp
    obtain ⟨td, htd, hn, hp'⟩ := mem_parentsOf hp
    simp only [regDiamond, List.mem_cons, List.not_mem_nil, or_false] at htd
    rcases htd with rfl | rfl | rfl | rfl
    · simp [tdA] at hp'
    · simp [tdB] at hn hp'
      subst hn
      subst hp'
      decide
    · simp [tdC] at hn hp'
      subst hn
      subst hp'
      decide
    · simp [tdD] at hn hp'
      subst hn
      rcases hp' with rfl | rfl <;> decide
  · intro n
    unfold rankDiamond
    repeat' split
    all_goals decide

theorem attrsOf_eq {reg : List TypeDef} {td : TypeDef} {name : String}
    (h : lookupType reg name = some td) : attrsOf reg name = td.attributes := by
  unfold attrsOf
  rw [h]

/-- C1: for every diamond inheritance graph in which type `D` has parents
`B` then `C` (in that declared order) and `B` and `C` share an ancestor `A`,
`effectiveAttributes(D)` merges `A`'s attribute block exactly once (`A`
occurs exactly once in the merge order); for every attribute key, `D`'s own
value wins over `B`'s and `C`'s, and `B`'s value wins over `C`'s for keys not
set by `D`. -/
theorem effectiveAttributes_diamond (reg : List TypeDef) (rank : String → Nat)
    (hrk : Ranked reg rank) (D B C A : String) (tD tB : TypeDef)
    (hD : lookupType reg D = some tD) (hpar : tD.parents = [B, C])
    (hB : lookupType reg B = some tB)
    (hAB : A ∈ fullChain reg B) (_hAC : A ∈ fullChain reg C) :
    (ancestorsOf reg D).count A = 1
    ∧ (∀ k v, blockGet tD.attributes k = some v →
        blockGet (effectiveAttributes reg D) k = some v)
    ∧ (∀ k v, blockGet tD.attributes k = none → blockGet tB.attributes k = some v →
        blockGet (effectiveAttributes reg D) k = some v) := by
  have hBpar : B ∈ parentsOf reg D := by
    unfold parentsOf
    rw [hD]
    show B ∈ tD.parents
    rw [hpar]
    exact List.mem_cons_self _ _
  obtain ⟨pre, hsplit⟩ := effectiveAttributes_split hrk hD hpar
  refine ⟨?_, ?_, ?_⟩
  · have hAD : A ∈ fullChain reg D :=
      fullChain_trans hrk (parent_mem_fullChain hBpar) hAB
    exact List.count_eq_one_of_mem (ancestorsOf_nodup hrk D)
      ((mem_ancestorsOf hrk).mpr hAD)
  · intro k v hk
    rw [hsplit, attrsOf_eq hD]
    exact blockGet_append_right hk _
  · intro k v hnone hsome
    rw [hsplit, attrsOf_eq hD, attrsOf_eq hB, blockGet_append_left hnone]
    exact blockGet_append_right hsome _

/-- Witness for C1 at the concrete diamond registry: `A`'s block is merged
once; key `z` (set by `D`) resolves to `D`'s value; key `w` (set by `B` and
`C` but not `D`) resolves to `B`'s value. -/
theorem effectiveAttributes_diamond_witness :
    (ancestorsOf regDiamond "D").count "A" = 1
    ∧ blockGet (effectiveAttributes regDiamond "D") "z" = some "d"
    ∧ blockGet (effectiveAttributes regDiamond "D") "w" = some "b" := by
  have h := effectiveAttributes_diamond regDiamond rankDiamond rankDiamond_spec
    "D" "B" "C" "A" tdD tdB (by decide) (by decide) (by decide) (by decide) (by decide)
  exact ⟨h.1, h.2.1 "z" "d" (by decide), h.2.2 "w" "b" (by decide) (by decide)⟩

/-- C2: `ancestorsOf(name)` is the ordered sequence consisting of the type
itself first, then each parent's ancestor chain depth-first in declared
parent order (that is the naive chain at the registry's fuel), with any
ancestor reached more than once emitted only at its first occurrence and
suppressed afterwards; proved for every name of every acyclic registry. -/
theorem ancestorsOf_merge_order (reg : List TypeDef) (rank : String → Nat)
    (hrk : Ranked reg rank) (name : String) :
    ancestorsOf reg name = dedupFirst [] (naiveChain reg (hierFuel reg) name) :=
  ancestorsOf_eq_dedup hrk name

/-- Witness for C2 at the concrete diamond registry. -/
theorem ancestorsOf_merge_order_witness :
    ancestorsOf regDiamond "D"
      = dedupFirst [] (naiveChain regDiamond (hierFuel regDiamond) "D") :=
  ancestorsOf_merge_order regDiamond rankDiamond rankDiamond_spec "D"

theorem lookupType_perm {reg₁ reg₂ : List TypeDef} (hperm : reg₁.Perm reg₂)
    (hnd : ∀ n td₁ td₂, td₁ ∈ reg₁ → td₂ ∈ reg₁ → n ∈ td₁.names → n ∈ td₂.names →
      td₁ = td₂)
    (n : String) : lookupType reg₁ n = lookupType reg₂ n := by
  unfold lookupType
  rcases h₁ : reg₁.find? (fun td => decide (n ∈ td.names)) with _ | td
  · rcases h₂ : reg₂.find? (fun td => decide (n ∈ td.names)) with _ | td'
    · rw [h₁, h₂]
    · exfalso
      have htd' : td' ∈ reg₁ := hperm.mem_iff.mpr (List.mem_of_find?_eq_some h₂)
      have hp : n ∈ td'.names := by
        have hf := List.find?_some h₂
        simpa using hf
      have hnone := List.find?_eq_none.mp h₁ td' htd'
      simp [hp] at hnone
  · have htd : td ∈ reg₁ := List.mem_of_find?_eq_some h₁
    have hptd : n ∈ td.names := by
      have hf := List.find?_some h₁
      simpa using hf
    rcases h₂ : reg₂.find? (fun td => decide (n ∈ td.names)) with _ | td'
    · exfalso
      have hnone := List.find?_eq_none.mp h₂ td (hperm.mem_iff.mp htd)
      simp [hptd] at hnone
    · have htd' : td' ∈ reg₁ := hperm.mem_iff.mpr (List.mem_of_find?_eq_some h₂)
      have hptd' : n ∈ td'.names := by
        have hf := List.find?_some h₂
        simpa using hf
      rw [h₁, h₂, hnd n td td' htd htd' hptd hptd']

theorem ancStep_congr {reg₁ reg₂ : List TypeDef}
    (h : ∀ n, lookupType reg₁ n = lookupType reg₂ n) :
    ∀ fuel emitted n, ancStep reg₁ fuel emitted n = ancStep reg₂ fuel emitted n := by
  intro fuel
  induction fuel with
  | zero => intro emitted n; rfl
  | succ f ih =>
    intro emitted n
    have hpar : parentsOf reg₁ n = parentsOf reg₂ n := by
      unfold parentsOf
      rw [h n]
    have hfn : ancStep reg₁ f = ancStep reg₂ f :=
      funext (fun e => funext (fun m => ih e m))
    simp only [ancStep]
    rw [hpar, hfn]

theorem effectiveAttributes_congr {reg₁ reg₂ : List TypeDef}
    (hlen : reg₁.length = reg₂.length)
    (h : ∀ n, lookupType reg₁ n = lookupType reg₂ n) (t : String) :
    effectiveAttributes reg₁ t = effectiveAttributes reg₂ t := by
  have hanc : ancestorsOf reg₁ t = ancestorsOf reg₂ t := by
    unfold ancestorsOf hierFuel
    rw [hlen, ancStep_congr h]
  have hattr : ∀ m, attrsOf reg₁ m = attrsOf reg₂ m := by
    intro m
    unfold attrsOf
    rw [h m]
  have hac : ∀ l, attrsConcat reg₁ l = attrsConcat reg₂ l := by
    intro l
    induction l with
    | nil => rfl
    | cons x xs ih => simp [attrsConcat, ih, hattr x]
  unfold effectiveAttributes
  rw [hanc, hac]

/-- C3: for every pair of valid (acyclic, fully registered) type hierarchies
that declare the same set of types — the registries are permutations of each
other, with unambiguous names — `effectiveAttributes` agrees on every type
name: the merge result is independent of the source order of the type facts. -/
theorem effectiveAttributes_decl_order_invariant (reg₁ reg₂ : List TypeDef)
    (rank : String → Nat) (_hrk : Ranked reg₁ rank)
    (hperm : reg₁.Perm reg₂)
    (hnd : ∀ n td₁ td₂, td₁ ∈ reg₁ → td₂ ∈ reg₁ → n ∈ td₁.names → n ∈ td₂.names →
      td₁ = td₂)
    (t : String) :
    effectiveAttributes reg₁ t = effectiveAttributes reg₂ t :=
  effectiveAttributes_congr hperm.length_eq (lookupType_perm hperm hnd) t

/-- Name claims in the diamond registry are unambiguous. -/
theorem regDiamond_unique_names : ∀ (n : String) (td₁ td₂ : TypeDef),
    td₁ ∈ regDiamond → td₂ ∈ regDiamond → n ∈ td₁.names → n ∈ td₂.names →
      td₁ = td₂ := by
  intro n td₁ td₂ h₁ h₂ hn₁ hn₂
  simp only [regDiamond, List.mem_cons, List.not_mem_nil, or_false] at h₁ h₂
  rcases h₁ with rfl | rfl | rfl | rfl <;> rcases h₂ with rfl | rfl | rfl | rfl <;>
    simp_all [tdA, tdB, tdC, tdD]

/-- Witness for C3: two declaration orders of the diamond registry give the
same effective attributes for `D`. -/
theorem effectiveAttributes_decl_order_invariant_witness :
    effectiveAttributes regDiamond "D" = effectiveAttributes regDiamondPerm "D" :=
  effectiveAttributes_decl_order_invariant regDiamond regDiamondPerm rankDiamond
    rankDiamond_spec (by decide) regDiamond_unique_names "D"

theorem mem_allNames {reg : List TypeDef} {td : TypeDef} {x : String}
    (htd : td ∈ reg) (hx : x ∈ td.names) : x ∈ allNames reg := by
  induction reg with
  | nil => cases htd
  | cons t ts ih =>
    rcases List.mem_cons.mp htd with rfl | h
    · exact List.mem_append.mpr (Or.inl hx)
    · exact List.mem_append.mpr (Or.inr (ih h))

theorem stepsToL_append (reg : List TypeDef) :
    ∀ (l₁ l₂ : List String) (a c : String),
      stepsToL reg a (l₁ ++ l₂) c ↔ ∃ b, stepsToL reg a l₁ b ∧ stepsToL reg b l₂ c := by
  intro l₁
  induction l₁ with
  | nil =>
    intro l₂ a c
    constructor
    · intro h
      exact ⟨a, rfl, h⟩
    · rintro ⟨b, hb, h⟩
      have hb' : a = b := hb
      subst hb'
      exact h
  | cons p l₁ ih =>
    intro l₂ a c
    constructor
    · rintro ⟨hp, hrest⟩
      obtain ⟨b, h₁, h₂⟩ := (ih l₂ p c).mp hrest
      exact ⟨b, ⟨hp, h₁⟩, h₂⟩
    · rintro ⟨b, ⟨hp, h₁⟩, h₂⟩
      exact ⟨hp, (ih l₂ p c).mpr ⟨b, h₁, h₂⟩⟩

theorem not_nodup_decomp {α : Type} :
    ∀ {L : List α}, ¬ L.Nodup →
      ∃ (x : α) (s₁ s₂ s₃ : List α), L = s₁ ++ x :: s₂ ++ x :: s₃ := by
  intro L
  induction L with
  | nil => intro h; exact absurd List.nodup_nil h
  | cons y L ih =>
    intro h
    by_cases hy : y ∈ L
    · obtain ⟨u, v, rfl⟩ := List.append_of_mem hy
      exact ⟨y, [], u, v, by simp⟩
    · have hL : ¬ L.Nodup := fun hn => h (List.nodup_cons.mpr ⟨hy, hn⟩)
      obtain ⟨x, s₁, s₂, s₃, rfl⟩ := ih hL
      exact ⟨x, y :: s₁, s₂, s₃, by simp⟩

theorem stepsToL_parents (reg : List TypeDef) :
    ∀ (l : List String) (a b : String), stepsToL reg a l b →
      ∀ x ∈ l, x = b ∨ parentsOf reg x ≠ [] := by
  intro l
  induction l with
  | nil => intro a b h x hx; cases hx
  | cons p l ih =>
    intro a b h x hx
    obtain ⟨hp, hrest⟩ := h
    rcases List.mem_cons.mp hx with rfl | hx'
    · rcases l with _ | ⟨q, l'⟩
      · have hxb : x = b := hrest
        exact Or.inl hxb
      · obtain ⟨hq, -⟩ := hrest
        exact Or.inr (List.ne_nil_of_mem hq)
    · exact ih p b hrest x hx'

theorem mem_allNames_of_parents {reg : List TypeDef} {x : String}
    (h : parentsOf reg x ≠ []) : x ∈ allNames reg := by
  obtain ⟨p, hp⟩ := List.exists_mem_of_ne_nil _ h
  obtain ⟨td, htd, hx, -⟩ := mem_parentsOf hp
  exact mem_allNames htd hx

theorem nodup_subset_length {l L : List String} (hd : l.Nodup)
    (hsub : ∀ x ∈ l, x ∈ L) : l.length ≤ L.length := by
  have h1 : l.toFinset.card = l.length := List.toFinset_card_of_nodup hd
  have h2 : l.toFinset ⊆ L.toFinset := by
    intro x hx
    rw [List.mem_toFinset] at hx ⊢
    exact hsub x hx
  calc l.length = l.toFinset.card := h1.symm
    _ ≤ L.toFinset.card := Finset.card_le_card h2
    _ ≤ L.length := L.toFinset_card_le

/-- Any nonempty closed parent walk can be shortened — by splicing out the
stretch between two visits of a duplicated name — to a closed walk of length
at most the number of registered names. -/
theorem cycle_shorten (reg : List TypeDef) :
    ∀ (N : Nat) (l : List String) (m : String), l.length ≤ N →
      stepsToL reg m l m → l ≠ [] →
      ∃ (x : String) (lx : List String), stepsToL reg x lx x ∧ lx ≠ []
        ∧ lx.length ≤ (allNames reg).length := by
  intro N
  induction N with
  | zero =>
    intro l m hN hw hne
    rcases l with _ | ⟨p, l'⟩
    · exact absurd rfl hne
    · simp at hN
  | succ N ih =>
    intro l m hN hw hne
    by_cases hd : l.Nodup
    · refine ⟨m, l, hw, hne, nodup_subset_length hd ?_⟩
      intro x hx
      have hpm : parentsOf reg m ≠ [] := by
        rcases l with _ | ⟨p, l'⟩
        · exact absurd rfl hne
        · obtain ⟨hp, -⟩ := hw
          exact List.ne_nil_of_mem hp
      rcases stepsToL_parents reg l m m hw x hx with rfl | hpx
      · exact mem_allNames_of_parents hpm
      · exact mem_allNames_of_parents hpx
    · obtain ⟨x, s₁, s₂, s₃, rfl⟩ := not_nodup_decomp hd
      obtain ⟨b₁, hw1, hw2⟩ :=
        (stepsToL_append reg (s₁ ++ x :: s₂) (x :: s₃) m m).mp hw
      obtain ⟨hxb₁, -⟩ := hw2
      obtain ⟨b₂, hw3, hw4⟩ := (stepsToL_append reg s₁ (x :: s₂) m b₁).mp hw1
      obtain ⟨hxb₂, hw5⟩ := hw4
      have hwx : stepsToL reg x (s₂ ++ [x]) x :=
        (stepsToL_append reg s₂ [x] x x).mpr ⟨b₁, hw5, ⟨hxb₁, rfl⟩⟩
      refine ih (s₂ ++ [x]) x ?_ hwx (by simp)
      have hlen := hN
      simp only [List.length_append, List.length_cons] at hlen
      simp only [List.length_append, List.length_cons, List.length_nil]
      omega

theorem reachB_of_steps (reg : List TypeDef) :
    ∀ (l : List String) (f : Nat) (a b : String),
      stepsToL reg a l b → l ≠ [] → l.length ≤ f → reachB reg f a b = true := by
  intro l
  induction l with
  | nil => intro f a b _ hne; exact absurd rfl hne
  | cons p l ih =>
    intro f a b hw _ hf
    obtain ⟨hp, hrest⟩ := hw
    obtain ⟨f', rfl⟩ : ∃ f', f = f' + 1 := ⟨f - 1, by simp at hf; omega⟩
    show reachB reg (f' + 1) a b = true
    simp only [reachB, List.any_eq_true]
    refine ⟨p, hp, ?_⟩
    rcases l with _ | ⟨q, l'⟩
    · have hb : p = b := hrest
      simp [hb]
    · have hr : reachB reg f' p b = true := by
        refine ih f' p b hrest (by simp) ?_
        simp at hf ⊢
        omega
      simp [hr]

/-- C4: for every type registry containing a parent cycle — a nonempty
closed walk along declared parent edges, of any length and regardless of
further parents, the two-declaration cycle `node-type X is-a Y` plus
`node-type Y is-a X` in particular — the post-registration validation (a
total, hence always terminating, function) fails with `CyclicTypeHierarchy`
reporting a nonempty list of participating names, and never returns a
resolved hierarchy. -/
theorem validateHierarchy_cycle (reg : List TypeDef) (m : String) (l : List String)
    (hw : stepsToL reg m l m) (hne : l ≠ []) :
    (∃ ns, validateHierarchy reg = Except.error (RegError.CyclicTypeHierarchy ns)
      ∧ ns ≠ [])
    ∧ validateHierarchy reg ≠ Except.ok () := by
  obtain ⟨x, lx, hwx, hnex, hlen⟩ := cycle_shorten reg l.length l m le_rfl hw hne
  have hx_named : x ∈ allNames reg := by
    rcases lx with _ | ⟨p, lx'⟩
    · exact absurd rfl hnex
    · obtain ⟨hp, -⟩ := hwx
      exact mem_allNames_of_parents (List.ne_nil_of_mem hp)
  have hreach : reachB reg (reachFuel reg) x x = true :=
    reachB_of_steps reg lx (reachFuel reg) x x hwx hnex (by unfold reachFuel; omega)
  have hmem : x ∈ cyclicNames reg :=
    List.mem_filter.mpr ⟨hx_named, by simpa using hreach⟩
  rcases hc : cyclicNames reg with _ | ⟨n, ns⟩
  · rw [hc] at hmem
    cases hmem
  · have hval : validateHierarchy reg
        = Except.error (RegError.CyclicTypeHierarchy (n :: ns)) := by
      unfold validateHierarchy
      rw [hc]
    refine ⟨⟨n :: ns, hval, by simp⟩, ?_⟩
    intro h
    rw [hval] at h
    cases h

/-- Witness for C4 at the two-declaration cyclic registry, via the concrete
closed walk X → Y → X. -/
theorem validateHierarchy_cycle_witness :
    validateHierarchy regCycle
        = Except.error (RegError.CyclicTypeHierarchy ["X", "Y"])
    ∧ validateHierarchy regCycle ≠ Except.ok () :=
  ⟨by rfl,
    (validateHierarchy_cycle regCycle "X" ["Y", "X"] (by decide) (by decide)).2⟩

theorem edgeCountList_append (l₁ l₂ : List Fact) :
    edgeCountList (l₁ ++ l₂) = edgeCountList l₁ + edgeCountList l₂ := by
  induction l₁ with
  | nil => simp [edgeCountList]
  | cons f fs ih => simp [edgeCountList, ih, Nat.add_assoc]

theorem buildEdgesFrom_append (reg : List TypeDef) :
    ∀ (fs₁ fs₂ : List Fact) (k : Nat),
      buildEdgesFrom reg k (fs₁ ++ fs₂)
        = buildEdgesFrom reg k fs₁ ++ buildEdgesFrom reg (k + edgeCountList fs₁) fs₂ := by
  intro fs₁
  induction fs₁ with
  | nil => intro fs₂ k; simp [buildEdgesFrom, edgeCountList]
  | cons f fs ih =>
    intro fs₂ k
    cases f with
    | obj ty ns lbl attrs =>
      simp [buildEdgesFrom, edgeCountList, factEdgeCount, ih]
    | rel lhs ll rt rl rhs attrs =>
      simp [buildEdgesFrom, edgeCountList, factEdgeCount, ih, List.append_assoc,
        Nat.add_assoc]

theorem mem_buildEdges_here (reg : List TypeDef) (pre post : List Fact)
    (a b rt : String) (ll rl : Option String) (attrs : List (String × String)) :
    (⟨edgeCountList pre, a, b, rt, effectiveAttributes reg rt ++ attrs⟩ : Edge)
      ∈ buildEdges reg (pre ++ Fact.rel [a] ll rt rl [b] attrs :: post) := by
  unfold buildEdges
  rw [buildEdgesFrom_append]
  refine List.mem_append.mpr (Or.inr ?_)
  simp [buildEdgesFrom, relPairs, edgesFrom]

/-- C5: for every input containing the relation fact `A rel B` twice, the
built graph contains two distinct edges that agree on endpoints, relation
type and attributes and differ only in their ordinal; the ordinal makes the
edge identity tuple (ordinal, lhs, rhs, relation type) distinct. -/
theorem buildEdges_multigraph (reg : List TypeDef) (pre mid post : List Fact)
    (a b rt : String) (ll rl : Option String) (attrs : List (String × String)) :
    ∃ e₁ e₂ : Edge,
      e₁ ∈ buildEdges reg (pre ++ Fact.rel [a] ll rt rl [b] attrs
            :: (mid ++ Fact.rel [a] ll rt rl [b] attrs :: post))
      ∧ e₂ ∈ buildEdges reg (pre ++ Fact.rel [a] ll rt rl [b] attrs
            :: (mid ++ Fact.rel [a] ll rt rl [b] attrs :: post))
      ∧ e₁.lhs = a ∧ e₁.rhs = b ∧ e₁.relType = rt
      ∧ e₂.lhs = e₁.lhs ∧ e₂.rhs = e₁.rhs ∧ e₂.relType = e₁.relType
      ∧ e₂.attributes = e₁.attributes
      ∧ e₁.ordinal ≠ e₂.ordinal ∧ e₁ ≠ e₂ := by
  refine ⟨⟨edgeCountList pre, a, b, rt, effectiveAttributes reg rt ++ attrs⟩,
    ⟨edgeCountList pre + (1 + edgeCountList mid), a, b, rt,
      effectiveAttributes reg rt ++ attrs⟩,
    ?_, ?_, rfl, rfl, rfl, rfl, rfl, rfl, rfl, by simp, ?_⟩
  · exact mem_buildEdges_here reg pre (mid ++ Fact.rel [a] ll rt rl [b] attrs :: post)
      a b rt ll rl attrs
  · have hsplit :
        pre ++ Fact.rel [a] ll rt rl [b] attrs
            :: (mid ++ Fact.rel [a] ll rt rl [b] attrs :: post)
          = (pre ++ Fact.rel [a] ll rt rl [b] attrs :: mid)
              ++ Fact.rel [a] ll rt rl [b] attrs :: post := by
      simp [List.append_assoc]
    rw [hsplit]
    have h := mem_buildEdges_here reg (pre ++ Fact.rel [a] ll rt rl [b] attrs :: mid)
      post a b rt ll rl attrs
    have hecl : edgeCountList (pre ++ Fact.rel [a] ll rt rl [b] attrs :: mid)
        = edgeCountList pre + (1 + edgeCountList mid) := by
      rw [edgeCountList_append]
      simp [edgeCountList, factEdgeCount, relPairs]
    rw [hecl] at h
    exact h
  · intro h
    have := congrArg Edge.ordinal h
    simp at this

/-- C6: a name that appears only as a relation endpoint and in no object
fact is materialized in the built graph as a vertex with the implicit
default type and an empty attribute block. -/
theorem buildVertices_autoviv (reg : List TypeDef) (facts : List Fact) (b : String)
    (hend : b ∈ endpointNames facts) (hobj : b ∉ objNames facts) :
    (⟨b, defaultType, none, []⟩ : Vertex) ∈ buildVertices reg facts := by
  unfold buildVertices implicitVertices
  refine List.mem_append.mpr (Or.inr ?_)
  refine List.mem_map.mpr ⟨b, ?_, rfl⟩
  refine List.mem_filter.mpr ⟨?_, ?_⟩
  · rcases mem_seen_or_dedupFirst [] hend with h | h
    · cases h
    · exact h
  · simp [hobj]

/-- Witness for C6: in `class A` plus `A has B`, the undeclared `B` becomes
a default-typed, attribute-free vertex. -/
theorem buildVertices_autoviv_witness :
    (⟨"B", defaultType, none, []⟩ : Vertex) ∈ buildVertices [] vivFacts :=
  buildVertices_autoviv [] vivFacts "B" (by decide) (by decide)

/-- C7: the lexer's decoding of quoted identifiers maps backslash-quote to a
literal quotation mark and a doubled backslash to a single backslash; in
particular the source identifier `"Hello \"quoted\" world"` decodes to the
text `Hello "quoted" world`. -/
theorem lexQuoted_escapes :
    (∀ rest, lexQuoted ('\\' :: '"' :: rest)
        = match lexQuoted rest with
          | some (s, r) => some ('"' :: s, r)
          | none => none)
    ∧ (∀ rest, lexQuoted ('\\' :: '\\' :: rest)
        = match lexQuoted rest with
          | some (s, r) => some ('\\' :: s, r)
          | none => none)
    ∧ lexQuoted ("Hello \\\"quoted\\\" world\"".data)
        = some (("Hello \"quoted\" world").data, []) := by
  refine ⟨fun rest => rfl, fun rest => rfl, by decide⟩

theorem parseMoreNames_stop (toks : List Tok) (h : toks.head? ≠ some Tok.comma) :
    parseMoreNames toks = ([], toks) := by
  rcases toks with _ | ⟨t, rest⟩
  · rfl
  · cases t with
    | ident s => rfl
    | comma => exact absurd rfl h

theorem parseMoreNames_encode :
    ∀ (ns : List String) (suffix : List Tok), suffix.head? ≠ some Tok.comma →
      parseMoreNames (encodeTail ns ++ suffix) = (ns, suffix) := by
  intro ns
  induction ns with
  | nil =>
    intro suffix h
    simpa [encodeTail] using parseMoreNames_stop suffix h
  | cons n ns ih =>
    intro suffix h
    simp only [encodeTail, List.cons_append]
    rw [show parseMoreNames (Tok.comma :: Tok.ident n :: (encodeTail ns ++ suffix))
        = (n :: (parseMoreNames (encodeTail ns ++ suffix)).1,
           (parseMoreNames (encodeTail ns ++ suffix)).2) from rfl]
    rw [ih suffix h]

theorem parseNameList_encode (n : String) (ns : List String) (suffix : List Tok)
    (h : suffix.head? ≠ some Tok.comma) :
    parseNameList (encodeNames (n :: ns) ++ suffix) = some (n :: ns, suffix) := by
  simp only [encodeNames, List.cons_append]
  rw [show parseNameList (Tok.ident n :: (encodeTail ns ++ suffix))
      = some (n :: (parseMoreNames (encodeTail ns ++ suffix)).1,
              (parseMoreNames (encodeTail ns ++ suffix)).2) from rfl]
  rw [parseMoreNames_encode ns suffix h]

/-- C8: in a type-declaration header the connective tokens `is-a`, `is-an`,
`are` act only as the separator between the synonym list and the parent
list: the parsed `TypeDef` (names, kind, parents, attributes, label) is the
same whichever connective is used.  `parseTypeDecl` consults no registry, so
the result is unchanged even when these tokens are also declared as
edge-type names elsewhere in the input. -/
theorem parseTypeDecl_connective (kind : TypeKind) (n₁ p₁ : String)
    (ns ps : List String) (attrs : List (String × String)) (conn : String)
    (hconn : conn ∈ connectives) :
    parseTypeDecl kind
        (encodeNames (n₁ :: ns) ++ Tok.ident conn :: encodeNames (p₁ :: ps)) attrs
      = some ⟨n₁ :: ns, kind, p₁ :: ps, attrs, blockGet attrs "label"⟩ := by
  unfold parseTypeDecl
  rw [parseNameList_encode n₁ ns (Tok.ident conn :: encodeNames (p₁ :: ps)) (by simp)]
  have hdrop : dropConnective (Tok.ident conn :: encodeNames (p₁ :: ps))
      = encodeNames (p₁ :: ps) := by
    show (if conn ∈ connectives then encodeNames (p₁ :: ps)
      else Tok.ident conn :: encodeNames (p₁ :: ps)) = encodeNames (p₁ :: ps)
    rw [if_pos hconn]
  have hrest : parseNameList (dropConnective (Tok.ident conn :: encodeNames (p₁ :: ps)))
      = some (p₁ :: ps, []) := by
    rw [hdrop]
    have h := parseNameList_encode p₁ ps [] (by simp)
    simpa using h
  simp [hrest]

/-- Witness for C8 at a concrete header `edge-type foo is-an bar`. -/
theorem parseTypeDecl_connective_witness :
    parseTypeDecl TypeKind.edge
        (encodeNames ["foo"] ++ Tok.ident "is-an" :: encodeNames ["bar"])
        [("shape", "box")]
      = some ⟨["foo"], TypeKind.edge, ["bar"], [("shape", "box")],
          blockGet [("shape", "box")] "label"⟩ :=
  parseTypeDecl_connective TypeKind.edge "foo" "bar" [] [] [("shape", "box")]
    "is-an" (by decide)

theorem dictGet_cons (p : String × String) (d : List (String × String)) (k : String) :
    dictGet (p :: d) k = if p.1 == k then some p.2 else dictGet d k := by
  unfold dictGet
  rcases h : (p.1 == k) with _ | _
  · rw [List.find?_cons_of_neg _ (by simpa using h)]
    simp [h]
  · rw [List.find?_cons_of_pos _ (by simpa using h)]
    simp [h]

theorem dictGet_dictSet (d : List (String × String)) (k v k' : String) :
    dictGet (dictSet d k v) k' = if k' = k then some v else dictGet d k' := by
  induction d with
  | nil =>
    by_cases h : k' = k
    · subst h
      simp [dictSet, dictGet_cons]
    · simp [dictSet, dictGet_cons, dictGet, h, Ne.symm h]
  | cons q d ih =>
    rcases hq : (q.1 == k) with _ | _
    · have hq' : q.1 ≠ k := by simpa using hq
      have hset : dictSet (q :: d) k v = q :: dictSet d k v := by
        simp [dictSet, hq]
      rw [hset, dictGet_cons, ih, dictGet_cons]
      by_cases h1 : k' = k
      · subst h1
        rw [if_neg (by simpa using hq'), if_pos rfl, if_pos rfl]
      · rw [if_neg h1, if_neg h1]
    · have hq' : q.1 = k := by simpa using hq
      have hset : dictSet (q :: d) k v = (k, v) :: d := by
        simp [dictSet, hq]
      rw [hset, dictGet_cons, dictGet_cons]
      by_cases h1 : k' = k
      · subst h1
        rw [if_pos (by simp), if_pos rfl]
      · rw [if_neg (by
            intro hcon
            have hkk : k = k' := by simpa using hcon
            exact h1 hkk.symm),
          if_neg h1,
          if_neg (by
            intro hcon
            have hkk : q.1 = k' := by simpa using hcon
            rw [hq'] at hkk
            exact h1 hkk.symm)]

theorem find?_cons_pos {α : Type} (p : α → Bool) (a : α) (l : List α)
    (h : p a = true) : (a :: l).find? p = some a := by
  rw [List.find?_cons_of_pos _ h]

theorem find?_cons_neg {α : Type} (p : α → Bool) (a : α) (l : List α)
    (h : p a = false) : (a :: l).find? p = l.find? p := by
  rw [List.find?_cons_of_neg _ (by simp [h])]

theorem dictGet_foldl :
    ∀ (l : List (String × String)) (d0 : List (String × String)) (k : String),
      dictGet (l.foldl (fun d p => dictSet d p.1 p.2) d0) k
        = match l.reverse.find? (fun p => p.1 == k) with
          | some p => some p.2
          | none => dictGet d0 k := by
  intro l
  induction l with
  | nil => intro d0 k; simp
  | cons q l ih =>
    intro d0 k
    rw [List.foldl_cons, ih, List.reverse_cons]
    rcases hf : l.reverse.find? (fun p => p.1 == k) with _ | p
    · rw [hf, find?_append_none hf]
      rcases hq : (q.1 == k) with _ | _
      · rw [find?_cons_neg (fun r => r.1 == k) q [] hq, List.find?_nil]
        show dictGet (dictSet d0 q.1 q.2) k = dictGet d0 k
        rw [dictGet_dictSet, if_neg (by
          intro he
          rw [he] at hq
          simp at hq)]
      · rw [find?_cons_pos (fun r => r.1 == k) q [] hq]
        show dictGet (dictSet d0 q.1 q.2) k = some q.2
        have hq' : q.1 = k := by simpa using hq
        rw [dictGet_dictSet, if_pos hq'.symm]
    · rw [hf, find?_append_some hf]

theorem find?_filter_true {α : Type} (p q : α → Bool) (l : List α)
    (h : ∀ x, p x = true → q x = true) : (l.filter q).find? p = l.find? p := by
  induction l with
  | nil => rfl
  | cons x xs ih =>
    rcases hq : q x with _ | _
    · have hp : p x = false := by
        rcases hpx : p x with _ | _
        · rfl
        · rw [h x hpx] at hq; cases hq
      rw [List.filter_cons, if_neg (by simp [hq]), ih,
        List.find?_cons_of_neg _ (by simp [hp])]
    · rw [List.filter_cons, if_pos (by simp [hq])]
      rcases hpx : p x with _ | _
      · rw [List.find?_cons_of_neg _ (by simp [hpx]),
          List.find?_cons_of_neg _ (by simp [hpx]), ih]
      · rw [List.find?_cons_of_pos _ hpx, List.find?_cons_of_pos _ hpx]

theorem find?_filter_false {α : Type} (p q : α → Bool) (l : List α)
    (h : ∀ x, p x = true → q x = false) : (l.filter q).find? p = none := by
  induction l with
  | nil => rfl
  | cons x xs ih =>
    rcases hq : q x with _ | _
    · rw [List.filter_cons, if_neg (by simp [hq])]
      exact ih
    · rw [List.filter_cons, if_pos (by simp [hq])]
      have hp : p x = false := by
        rcases hpx : p x with _ | _
        · rfl
        · rw [h x hpx] at hq; cases hq
      rw [List.find?_cons_of_neg _ (by simp [hp])]
      exact ih

theorem filter_reverse' {α : Type} (q : α → Bool) (l : List α) :
    (l.filter q).reverse = l.reverse.filter q := by
  induction l with
  | nil => rfl
  | cons x xs ih =>
    rw [List.filter_cons, List.reverse_cons, List.filter_append]
    rcases hq : q x with _ | _
    · rw [if_neg (by simp [hq]), ih]
      simp [List.filter_cons, hq]
    · rw [if_pos (by simp [hq]), List.reverse_cons, ih]
      simp [List.filter_cons, hq]

/-- C9: the dictionary POSTed by the web front end's submit handler holds
exactly the serialized fields whose names do not start with an underscore,
each mapped to its value with a later duplicate overriding an earlier one;
changing the value of any underscore-prefixed field (such as `_layout`)
never changes the POSTed data. -/
theorem formDict_posted (pairs : List (String × String)) (k : String)
    (pre post : List (String × String)) (name v v' : String)
    (h : underscored name = true) :
    dictGet (formDict pairs) k
      = (if underscored k = true then none
         else match pairs.reverse.find? (fun p => p.1 == k) with
              | some p => some p.2
              | none => none)
    ∧ formDict (pre ++ (name, v) :: post) = formDict (pre ++ (name, v') :: post) := by
  constructor
  · unfold formDict
    rw [dictGet_foldl, filter_reverse']
    by_cases hk : underscored k = true
    · rw [find?_filter_false]
      · simp [hk, dictGet]
      · intro x hx
        have hx1 : x.1 = k := by simpa using hx
        simp [hx1, hk]
    · rw [find?_filter_true]
      · rcases hf : pairs.reverse.find? (fun p => p.1 == k) with _ | p
        · simp [hk, hf, dictGet]
        · simp [hk, hf]
      · intro x hx
        have hx1 : x.1 = k := by simpa using hx
        simp [hx1, hk]
  · unfold formDict
    congr 1
    simp [List.filter_append, List.filter_cons, h]

/-- Witness for C9: the underscore-prefixed `_layout` field is excluded and
its value is irrelevant; duplicated key `a` takes its later value. -/
theorem formDict_posted_witness :
    dictGet (formDict [("a", "1"), ("_layout", "h"), ("a", "2")]) "a"
      = (if underscored "a" = true then none
         else match ([("a", "1"), ("_layout", "h"), ("a", "2")]
                : List (String × String)).reverse.find? (fun p => p.1 == "a") with
              | some p => some p.2
              | none => none)
    ∧ formDict ([] ++ ("_layout", "x") :: [])
        = formDict ([] ++ ("_layout", "y") :: []) :=
  formDict_posted [("a", "1"), ("_layout", "h"), ("a", "2")] "a" [] []
    "_layout" "x" "y" (by decide)

/-- C10: whether the POST succeeds or fails, the submit handler's callback
removes the busy class from the form and empties `#output` before inserting
the new content, so afterwards `#output` holds exactly the new node — never
a mix of old and new content — and the form is no longer busy. -/
theorem submit_callbacks_reset (d : Dom) (status : Nat)
    (statusText responseText docEl : String) :
    (onFail d status statusText responseText).formBusy = false
    ∧ (onFail d status statusText responseText).output
        = [OutNode.errorPre (toString status ++ " " ++ statusText ++ "\n\n" ++ responseText)]
    ∧ (onDone d docEl).formBusy = false
    ∧ (onDone d docEl).output = [OutNode.svgDoc docEl] := by
  refine ⟨rfl, ?_, rfl, ?_⟩ <;>
    simp [onFail, onDone, appendOutput, emptyOutput, removeBusy]

end Relviz
